import Mathlib

/-!
Verification development for the mkdocs-autolinks-plugin link resolver
(src/mkdocs_autolinks_plugin/plugin.py).

Strings are modelled as `List Char` (one element per Unicode code point,
matching Python `str`).  The Python standard-library functions used by the
plugin (`os.path.basename`, `os.path.dirname`, `os.path.relpath`,
`os.path.normpath`, `urllib.parse.quote`, `str.strip`, `str.replace`) are
embedded below, each faithful to the CPython implementation on the inputs
the plugin feeds them (POSIX separators; `relpath` is embedded for absolute
arguments, which is what mkdocs supplies for `abs_src_path` and `docs_dir`,
so `posixpath.abspath` reduces to `posixpath.normpath`).

Python dicts preserve insertion order, so every registry is modelled as an
association list ordered by first insertion.
-/

/-- Python `str.split(sep)` for a single-character separator: `"".split` gives
`[""]`, separators at the ends give empty components. -/
def splitOnChar (sep : Char) (s : List Char) : List (List Char) :=
  s.foldr
    (fun c acc =>
      match acc with
      | [] => [[c]]
      | cur :: rest => if c = sep then [] :: cur :: rest else (c :: cur) :: rest)
    [[]]

/-- Lexicographic comparison of strings by code point, Python's `<=` on `str`. -/
def strLe : List Char → List Char → Bool
  | [], _ => true
  | _ :: _, [] => false
  | a :: as, b :: bs =>
    if a.toNat < b.toNat then true
    else if b.toNat < a.toNat then false
    else strLe as bs

/-- posixpath.basename: everything after the last slash. -/
def pyBasename (p : List Char) : List Char :=
  (p.reverse.takeWhile (fun c => c != '/')).reverse

/-- posixpath.dirname: `p[:rfind(sep)+1]`, with trailing slashes stripped
unless the head consists only of slashes. -/
def pyDirname (p : List Char) : List Char :=
  let head := (p.reverse.dropWhile (fun c => c != '/')).reverse
  if head.all (fun c => c = '/') then head
  else (head.reverse.dropWhile (fun c => c = '/')).reverse

/-- posixpath.normpath: collapse slashes and `.`, resolve `..` where
possible, preserve a leading `//` (exactly two slashes) specially. -/
def normpath (p : List Char) : List Char :=
  if p = [] then ['.']
  else
    let initialSlashes : Nat :=
      if p.take 1 = ['/'] then
        if p.take 2 = ['/', '/'] ∧ ¬ p.take 3 = ['/', '/', '/'] then 2 else 1
      else 0
    let comps := splitOnChar '/' p
    let newComps := comps.foldl
      (fun acc comp =>
        if comp = [] ∨ comp = ['.'] then acc
        else if ¬ comp = ['.', '.'] ∨ (initialSlashes = 0 ∧ acc = [])
                ∨ (acc.getLast? = some ['.', '.']) then acc ++ [comp]
        else if ¬ acc = [] then acc.dropLast
        else acc)
      []
    let joined := List.replicate initialSlashes '/' ++ List.intercalate ['/'] newComps
    if joined = [] then ['.'] else joined

/-- Length of the longest common prefix of two component lists,
`len(os.path.commonprefix([a, b]))` on lists. -/
def commonPrefixLen : List (List Char) → List (List Char) → Nat
  | a :: as, b :: bs => if a = b then commonPrefixLen as bs + 1 else 0
  | _, _ => 0

/-- posixpath.relpath for absolute `path` and `start` (mkdocs always passes
absolute paths, so `abspath` is `normpath` here). -/
def pyRelpath (path start : List Char) : List Char :=
  let pathList := (splitOnChar '/' (normpath path)).filter (fun c => ¬ c = [])
  let startList := (splitOnChar '/' (normpath start)).filter (fun c => ¬ c = [])
  let i := commonPrefixLen startList pathList
  let relList := List.replicate (startList.length - i) ['.', '.'] ++ pathList.drop i
  if relList = [] then ['.']
  else List.intercalate ['/'] relList

/-- Characters `urllib.parse.quote` leaves unescaped with the default
`safe='/'`: ASCII alphanumerics, `_.-~` and `/`. -/
def isSafeChar (c : Char) : Bool :=
  (('A' ≤ c ∧ c ≤ 'Z') ∨ ('a' ≤ c ∧ c ≤ 'z') ∨ ('0' ≤ c ∧ c ≤ '9')
    ∨ c = '_' ∨ c = '.' ∨ c = '-' ∨ c = '~' ∨ c = '/' : Bool)

/-- Uppercase hex digit for a nibble (the `% 16` makes totality obvious;
callers only pass values below 16). -/
def hexDigit (n : Nat) : Char :=
  if n % 16 < 10 then Char.ofNat (48 + n % 16) else Char.ofNat (55 + n % 16)

/-- UTF-8 encoding of one code point, as byte values. -/
def utf8Bytes (c : Char) : List Nat :=
  let n := c.toNat
  if n < 0x80 then [n]
  else if n < 0x800 then [0xC0 + n / 0x40, 0x80 + n % 0x40]
  else if n < 0x10000 then
    [0xE0 + n / 0x1000, 0x80 + n / 0x40 % 0x40, 0x80 + n % 0x40]
  else
    [0xF0 + n / 0x40000, 0x80 + n / 0x1000 % 0x40, 0x80 + n / 0x40 % 0x40, 0x80 + n % 0x40]

/-- Percent-escape of one byte, `%XX` with uppercase hex. -/
def percentByte (b : Nat) : List Char :=
  ['%', hexDigit (b / 16 % 16), hexDigit (b % 16)]

/-- urllib.parse.quote with the default `safe='/'`: UTF-8 encode, keep safe
characters, percent-escape every other byte. -/
def quote (s : List Char) : List Char :=
  (s.map (fun c =>
    if isSafeChar c then [c]
    else ((utf8Bytes c).map percentByte).flatten)).flatten

/-- The characters Python `str.isspace()` (and hence `str.strip()` with no
arguments) treats as whitespace: the ASCII whitespace and separator
controls plus the Unicode NEL, no-break spaces, space separators and the
line and paragraph separators. -/
def wsChars : List Char :=
  ['\x09', '\x0a', '\x0b', '\x0c', '\x0d', '\x1c', '\x1d', '\x1e', '\x1f', ' ',
   '\u0085', '\u00a0', '\u1680', '\u2000', '\u2001', '\u2002', '\u2003', '\u2004',
   '\u2005', '\u2006', '\u2007', '\u2008', '\u2009', '\u200a', '\u2028', '\u2029',
   '\u202f', '\u205f', '\u3000']

/-- Python `str.strip()` whitespace predicate. -/
def pyIsWs (c : Char) : Bool := decide (c ∈ wsChars)

/-- Python `str.strip()`. -/
def pyStrip (s : List Char) : List Char :=
  ((s.dropWhile pyIsWs).reverse.dropWhile pyIsWs).reverse

/-- Fuel-driven core of Python `str.replace` for a nonempty pattern:
left-to-right, non-overlapping, every occurrence. Fuel `≥ length` suffices. -/
def pyReplaceFuel (t r : List Char) : Nat → List Char → List Char
  | 0, s => s
  | _ + 1, [] => []
  | n + 1, c :: s =>
    if t.isPrefixOf (c :: s) then r ++ pyReplaceFuel t r n ((c :: s).drop t.length)
    else c :: pyReplaceFuel t r n s

/-- Python `s.replace(t, r)`.  For the empty pattern Python inserts `r`
before every character and at the end. -/
def pyReplace (s t r : List Char) : List Char :=
  if t = [] then r ++ (s.map (fun c => c :: r)).flatten
  else pyReplaceFuel t r s.length s

/-!  The link grammar.

AUTOLINK_RE = (?:\!\[\]|\[([^\]]+)\])\((([^)/]+\.(md|png|jpg|jpeg|bmp|gif))(#[^)]*)*)\)

Match groups: 1 alt text (absent for the image form), 2 full url, 3 filename,
4 extension, 5 hash anchor.  The functions below implement exactly the match
this pattern (under CPython `re` leftmost / greedy / backtracking semantics)
produces at a given position; `re_sub` below implements `re.sub` scanning.
-/

/-- The extension alternation `(md|png|jpg|jpeg|bmp|gif)`, in source order.
No alternative is a prefix of another, so at most one can match at a
position and alternation order never matters. -/
def extList : List (List Char) :=
  [['m', 'd'], ['p', 'n', 'g'], ['j', 'p', 'g'], ['j', 'p', 'e', 'g'],
   ['b', 'm', 'p'], ['g', 'i', 'f']]

/-- One backtracking attempt for `([^)/]+\.(ext))(#[^)]*)*` against the
paren-free target text `T`, with `[^)/]+` bound to the first `l` characters:
the slice must be slash-free, followed by a dot, an extension, and a
remainder that is empty or starts the anchor part with `#`. -/
def trySplitAt (T : List Char) (l : Nat) : Option (List Char × List Char) :=
  if 1 ≤ l ∧ (T.take l).all (fun c => c != '/') ∧ (T.drop l).head? = some '.' then
    match extList.find? (fun e => e.isPrefixOf (T.drop (l + 1))) with
    | some e =>
      if T.drop (l + 1 + e.length) = [] ∨ (T.drop (l + 1 + e.length)).head? = some '#' then
        some (T.take (l + 1 + e.length), T.drop (l + 1 + e.length))
      else none
    | none => none
  else none

/-- Greedy backtracking over the length of `[^)/]+`, longest first. -/
def splitTargetAux (T : List Char) : Nat → Option (List Char × List Char)
  | 0 => none
  | n + 1 =>
    match trySplitAt T (n + 1) with
    | some res => some res
    | none => splitTargetAux T n

/-- Decompose the paren-free target `T` as the regex would: group 3
(filename) and the anchor part, or fail. -/
def splitTarget (T : List Char) : Option (List Char × List Char) :=
  splitTargetAux T T.length

/-- The leading alternation `(?:\!\[\]|\[([^\]]+)\])`: returns group 1
(`none` for the empty-label image form) and the rest of the input. -/
def matchHead (s : List Char) : Option (Option (List Char) × List Char) :=
  if List.isPrefixOf ['!', '[', ']'] s then some (none, s.drop 3)
  else
    match s with
    | '[' :: s1 =>
      match s1.dropWhile (fun c => c != ']') with
      | ']' :: s2 =>
        if s1.takeWhile (fun c => c != ']') = [] then none
        else some (some (s1.takeWhile (fun c => c != ']')), s2)
      | _ => none
    | _ => none

/-- One parsed occurrence of the link syntax: group 1 (`none` for `![]`),
group 3, and the anchor part (group 2 is `g3 ++ anchors`). -/
structure LinkMatch where
  label : Option (List Char)
  g3 : List Char
  anchors : List Char
deriving DecidableEq

/-- The text of the match before group 2: label-or-image part plus `(`. -/
def headPart (m : LinkMatch) : List Char :=
  (match m.label with
   | none => ['!', '[', ']']
   | some l => '[' :: (l ++ [']'])) ++ ['(']

/-- Group 0, the whole matched substring. -/
def group0 (m : LinkMatch) : List Char :=
  headPart m ++ m.g3 ++ m.anchors ++ [')']

/-- Try to match AUTOLINK_RE at the start of `s`; on success return the
match and the input remaining after it. -/
def matchAt (s : List Char) : Option (LinkMatch × List Char) :=
  match matchHead s with
  | none => none
  | some (lab, s1) =>
    match s1 with
    | '(' :: s2 =>
      match splitTarget (s2.takeWhile (fun c => c != ')')) with
      | none => none
      | some (g3, anc) =>
        match s2.dropWhile (fun c => c != ')') with
        | ')' :: s3 => some (⟨lab, g3, anc⟩, s3)
        | _ => none
    | _ => none

/-- basename → absolute path of the first file seen with that basename. -/
abbrev FilenameIndex := List (List Char × List Char)

/-- basename → relative paths of every file carrying it (winner first). -/
abbrev DuplicateRegistry := List (List Char × List (List Char))

/-- basename → (referencing document relative path → occurrence count). -/
abbrev MissingRegistry := List (List Char × List (List Char × Nat))

/-- Dict lookup on an insertion-ordered association list. -/
def alookup {β : Type} : List (List Char × β) → List Char → Option β
  | [], _ => none
  | (k, v) :: rest, key => if k = key then some v else alookup rest key

/-- `Counter[k] += 1`: update in place, or append a fresh entry with 1. -/
def counterIncr : List (List Char × Nat) → List Char → List (List Char × Nat)
  | [], k => [(k, 1)]
  | (k, n) :: rest, key =>
    if k = key then (k, n + 1) :: rest else (k, n) :: counterIncr rest key

/-- `missing_filenames[f][p] += 1` on a `defaultdict(Counter)`. -/
def missingIncr : MissingRegistry → List Char → List Char → MissingRegistry
  | [], f, p => [(f, counterIncr [] p)]
  | (k, c) :: rest, f, p =>
    if k = f then (k, counterIncr c p) :: rest else (k, c) :: missingIncr rest f p

/-- `duplicate_filenames[k].append(x)` on a `defaultdict(list)`. -/
def dupAppend : DuplicateRegistry → List Char → List Char → DuplicateRegistry
  | [], k, x => [(k, [x])]
  | (k0, l) :: rest, k, x =>
    if k0 = k then (k0, l ++ [x]) :: rest else (k0, l) :: dupAppend rest k x

/-- The constructor arguments of `AutoLinkReplacer` that act as read-only
context; the mutable `missing_filenames` registry is threaded explicitly
through `AutoLinkReplacer.call`. -/
structure AutoLinkReplacer where
  base_docs_dir : List Char
  abs_page_path : List Char
  filename_to_abs_path : FilenameIndex

/-- `AutoLinkReplacer.__call__(match)`: returns the replacement text and the
updated missing registry. -/
def AutoLinkReplacer.call (ctx : AutoLinkReplacer) (missing : MissingRegistry)
    (m : LinkMatch) : List Char × MissingRegistry :=
  let filename := pyStrip m.g3
  let abs_linker_dir := pyDirname ctx.abs_page_path
  match alookup ctx.filename_to_abs_path filename with
  | none =>
    let rel_page_path := pyRelpath ctx.abs_page_path ctx.base_docs_dir
    (group0 m, missingIncr missing filename rel_page_path)
  | some abs_link_path =>
    let rel_link_path := quote (pyRelpath abs_link_path abs_linker_dir)
    (pyReplace (group0 m) m.g3 rel_link_path, missing)

/-- Fuel-driven `re.sub(AUTOLINK_RE, replacer, s)` scanning: at each
position try the pattern; on a match emit the replacement and continue
after the match, otherwise keep one character.  Fuel `≥ length` suffices. -/
def rewriteFuel (ctx : AutoLinkReplacer) :
    Nat → List Char → MissingRegistry → List Char × MissingRegistry
  | 0, s, miss => (s, miss)
  | _ + 1, [], miss => ([], miss)
  | n + 1, c :: s, miss =>
    match matchAt (c :: s) with
    | some (m, rest) =>
      let om := AutoLinkReplacer.call ctx miss m
      let tl := rewriteFuel ctx n rest om.2
      (om.1 ++ tl.1, tl.2)
    | none =>
      let tl := rewriteFuel ctx n s miss
      (c :: tl.1, tl.2)

/-- `re.sub(AUTOLINK_RE, AutoLinkReplacer(...), markdown)`. -/
def re_sub (ctx : AutoLinkReplacer) (s : List Char) (miss : MissingRegistry) :
    List Char × MissingRegistry :=
  rewriteFuel ctx s.length s miss

/-- One mkdocs `File`: its absolute source path and its path relative to the
docs root. -/
structure MkFile where
  abs_src_path : List Char
  src_path : List Char

/-- Loop body of `init_filename_to_abs_path`, threading the index and the
duplicate registry over the file sequence. -/
def initIndexAux (docs_dir : List Char) :
    List MkFile → FilenameIndex → DuplicateRegistry → FilenameIndex × DuplicateRegistry
  | [], idx, dup => (idx, dup)
  | f :: fs, idx, dup =>
    let filename := pyBasename f.abs_src_path
    match alookup idx filename with
    | some existing =>
      let dup1 :=
        if (alookup dup filename).getD [] = [] then
          dupAppend dup filename (pyRelpath existing docs_dir)
        else dup
      initIndexAux docs_dir fs idx (dupAppend dup1 filename f.src_path)
    | none => initIndexAux docs_dir fs (idx ++ [(filename, f.abs_src_path)]) dup

/-- `init_filename_to_abs_path(files, docs_dir)` run on a fresh plugin
instance: empty index, empty duplicate registry. -/
def init_index (files : List MkFile) (docs_dir : List Char) :
    FilenameIndex × DuplicateRegistry :=
  initIndexAux docs_dir files [] []

/-- The plugin instance state: `self.filename_to_abs_path` (None until the
first page is processed), `self.missing_filenames`, `self.duplicate_filenames`. -/
structure AutoLinksPlugin where
  filename_to_abs_path : Option FilenameIndex
  missing_filenames : MissingRegistry
  duplicate_filenames : DuplicateRegistry

/-- `AutoLinksPlugin.__init__`. -/
def AutoLinksPlugin.start : AutoLinksPlugin := ⟨none, [], []⟩

/-- `self.init_filename_to_abs_path(files, docs_dir)`: rebuilds the index
from scratch but keeps extending the instance's duplicate registry. -/
def AutoLinksPlugin.init_filename_to_abs_path (st : AutoLinksPlugin)
    (files : List MkFile) (docs_dir : List Char) : AutoLinksPlugin :=
  let res := initIndexAux docs_dir files [] st.duplicate_filenames
  { st with filename_to_abs_path := some res.1, duplicate_filenames := res.2 }

/-- `on_page_markdown`: initialize the index if it is still None, then
rewrite the page.  Returns the new markdown and the new instance state. -/
def AutoLinksPlugin.on_page_markdown (st : AutoLinksPlugin) (markdown : List Char)
    (abs_page_path docs_dir : List Char) (files : List MkFile) :
    List Char × AutoLinksPlugin :=
  let st1 :=
    if st.filename_to_abs_path = none then st.init_filename_to_abs_path files docs_dir
    else st
  let ctx : AutoLinkReplacer :=
    ⟨docs_dir, abs_page_path, st1.filename_to_abs_path.getD []⟩
  let res := re_sub ctx markdown st1.missing_filenames
  (res.1, { st1 with missing_filenames := res.2 })

/-- Decimal rendering of a count, Python `str(n)` inside the f-string. -/
def natToDec (n : Nat) : List Char := (Nat.repr n).data

/-- One line of the duplicates section. -/
def dupLine (dup : DuplicateRegistry) (filename : List Char) : List Char :=
  let paths := List.intercalate (", ".data)
    (((alookup dup filename).getD []).map (fun p => "`".data ++ p ++ "`".data))
  "- [ ] ".data ++ filename ++ ", at ".data ++ paths

/-- One block of the missing section: header line with the number of
distinct referencing documents, then one indented line per document. -/
def missLine (missing : MissingRegistry) (filename : List Char) : List Char :=
  let refs := (alookup missing filename).getD []
  let refStrs := refs.map (fun pc =>
    "  - `".data ++ pc.1 ++ "` (".data ++ natToDec pc.2 ++ " occurences)".data)
  "- [ ] ".data ++ filename ++ ", in ".data ++ natToDec refs.length
    ++ " file(s)\n".data ++ List.intercalate ("\n".data) refStrs

/-- `generate_report`: duplicates then missing, each section iterated over
`sorted(keys)` (the registries' keys are pairwise distinct, so any stable
comparison sort agrees with Python's `sorted`). -/
def AutoLinksPlugin.generate_report (st : AutoLinksPlugin) : List Char :=
  let dupStr := List.intercalate ("\n".data)
    (((st.duplicate_filenames.map Prod.fst).mergeSort strLe).map
      (dupLine st.duplicate_filenames))
  let missStr := List.intercalate ("\n".data)
    (((st.missing_filenames.map Prod.fst).mergeSort strLe).map
      (missLine st.missing_filenames))
  "# AutoLinksPlugin report\n\n## Duplicate filenames\n\n".data ++ dupStr
    ++ "\n\n## Missing filenames\n\n".data ++ missStr ++ "\n".data

/-! Basic list lemmas used throughout. -/

theorem length_dropWhile_le (p : Char → Bool) (l : List Char) :
    (l.dropWhile p).length ≤ l.length := by
  induction l with
  | nil => simp [List.dropWhile]
  | cons c t ih =>
    by_cases h : p c = true
    · simp [List.dropWhile, h]; omega
    · simp [List.dropWhile, h]

theorem takeWhile_middle (p : Char → Bool) (l : List Char) (a : Char) (r : List Char)
    (hl : ∀ c ∈ l, p c = true) (ha : p a = false) :
    (l ++ a :: r).takeWhile p = l := by
  induction l with
  | nil => simp [List.takeWhile, ha]
  | cons c t ih =>
    have hc : p c = true := hl c (by simp)
    simp only [List.cons_append, List.takeWhile_cons, hc, if_true]
    rw [ih (fun c hc2 => hl c (by simp [hc2]))]

theorem dropWhile_middle (p : Char → Bool) (l : List Char) (a : Char) (r : List Char)
    (hl : ∀ c ∈ l, p c = true) (ha : p a = false) :
    (l ++ a :: r).dropWhile p = a :: r := by
  induction l with
  | nil => simp [List.dropWhile, ha]
  | cons c t ih =>
    have hc : p c = true := hl c (by simp)
    simp only [List.cons_append, List.dropWhile_cons, hc, if_true]
    exact ih (fun c hc2 => hl c (by simp [hc2]))

theorem isPrefixOf_append_self (t b : List Char) : t.isPrefixOf (t ++ b) = true := by
  rw [List.isPrefixOf_iff_prefix]
  exact List.prefix_append t b

theorem isPrefixOf_nil_false (t : List Char) (ht : t ≠ []) :
    t.isPrefixOf [] = false := by
  cases t with
  | nil => exact absurd rfl ht
  | cons c r => rfl

/-! Lemmas about Python `str.replace`. -/

theorem pyReplaceFuel_cons_pos (t r : List Char) (n : Nat) (c : Char) (s : List Char)
    (h : t.isPrefixOf (c :: s) = true) :
    pyReplaceFuel t r (n + 1) (c :: s) = r ++ pyReplaceFuel t r n ((c :: s).drop t.length) := by
  simp [pyReplaceFuel, h]

theorem pyReplaceFuel_cons_neg (t r : List Char) (n : Nat) (c : Char) (s : List Char)
    (h : t.isPrefixOf (c :: s) = false) :
    pyReplaceFuel t r (n + 1) (c :: s) = c :: pyReplaceFuel t r n s := by
  simp [pyReplaceFuel, h]

theorem pyReplaceFuel_congr (t r : List Char) (ht : t ≠ []) :
    ∀ n m s, s.length ≤ n → s.length ≤ m →
      pyReplaceFuel t r n s = pyReplaceFuel t r m s := by
  intro n
  induction n with
  | zero =>
    intro m s hn _
    have : s = [] := List.eq_nil_of_length_eq_zero (Nat.le_zero.mp hn)
    subst this
    cases m <;> rfl
  | succ n ih =>
    intro m s hn hm
    cases s with
    | nil => cases m <;> rfl
    | cons c s0 =>
      cases m with
      | zero => simp at hm
      | succ m =>
        have htl : 1 ≤ t.length := by
          cases t with
          | nil => exact absurd rfl ht
          | cons a b => simp
        cases hpre : t.isPrefixOf (c :: s0) with
        | true =>
          rw [pyReplaceFuel_cons_pos t r n c s0 hpre, pyReplaceFuel_cons_pos t r m c s0 hpre]
          have hlen : ((c :: s0).drop t.length).length ≤ s0.length := by
            simp only [List.length_drop, List.length_cons]
            omega
          simp only [List.length_cons] at hn hm
          rw [ih m ((c :: s0).drop t.length) (by omega) (by omega)]
        | false =>
          rw [pyReplaceFuel_cons_neg t r n c s0 hpre, pyReplaceFuel_cons_neg t r m c s0 hpre]
          simp only [List.length_cons] at hn hm
          rw [ih m s0 (by omega) (by omega)]

theorem pyReplaceFuel_no_occ (t r : List Char) (_ht : t ≠ []) :
    ∀ n s, s.length ≤ n → (∀ i, i ≤ s.length → t.isPrefixOf (s.drop i) = false) →
      pyReplaceFuel t r n s = s := by
  intro n
  induction n with
  | zero =>
    intro s hn _
    have : s = [] := List.eq_nil_of_length_eq_zero (Nat.le_zero.mp hn)
    subst this; rfl
  | succ n ih =>
    intro s hn hocc
    cases s with
    | nil => rfl
    | cons c s0 =>
      have h0 : t.isPrefixOf (c :: s0) = false := by
        have := hocc 0 (by simp)
        simpa using this
      rw [pyReplaceFuel_cons_neg t r n c s0 h0]
      have hs0 : ∀ i, i ≤ s0.length → t.isPrefixOf (s0.drop i) = false := by
        intro i hi
        have := hocc (i + 1) (by simp; omega)
        simpa using this
      simp only [List.length_cons] at hn
      rw [ih s0 (by omega) hs0]

theorem pyReplace_no_occ (s t r : List Char) (ht : t ≠ [])
    (hocc : ∀ i, i ≤ s.length → t.isPrefixOf (s.drop i) = false) :
    pyReplace s t r = s := by
  unfold pyReplace
  rw [if_neg ht]
  exact pyReplaceFuel_no_occ t r ht s.length s (Nat.le_refl _) hocc

theorem pyReplaceFuel_structured (t r : List Char) (ht : t ≠ []) :
    ∀ a b n, (a ++ t ++ b).length ≤ n →
      (∀ i, i < a.length → t.isPrefixOf ((a ++ t ++ b).drop i) = false) →
      (∀ i, i ≤ b.length → t.isPrefixOf (b.drop i) = false) →
      pyReplaceFuel t r n (a ++ t ++ b) = a ++ r ++ b := by
  intro a
  induction a with
  | nil =>
    intro b n hn _ hb
    simp only [List.nil_append] at hn ⊢
    obtain ⟨c, s0, htb⟩ : ∃ c s0, t ++ b = c :: s0 := by
      cases hx : t ++ b with
      | nil =>
        exfalso
        cases t with
        | nil => exact absurd rfl ht
        | cons x y => simp at hx
      | cons c s0 => exact ⟨c, s0, rfl⟩
    have htl : 1 ≤ t.length := by
      cases t with
      | nil => exact absurd rfl ht
      | cons x y => simp
    cases n with
    | zero =>
      exfalso
      rw [htb] at hn
      simp at hn
    | succ n =>
      rw [htb] at hn ⊢
      have hpre : t.isPrefixOf (c :: s0) = true := by
        rw [← htb]
        exact isPrefixOf_append_self t b
      rw [pyReplaceFuel_cons_pos t r n c s0 hpre, ← htb, List.drop_left]
      rw [pyReplaceFuel_no_occ t r ht n b _ hb]
      have hlb : (t ++ b).length = t.length + b.length := by simp
      rw [htb] at hlb
      simp only [List.length_cons] at hn hlb
      omega
  | cons c a0 ih =>
    intro b n hn ha hb
    cases n with
    | zero =>
      exfalso
      simp at hn
    | succ n =>
      have h0 : t.isPrefixOf (c :: (a0 ++ t ++ b)) = false := by
        have := ha 0 (by simp)
        simpa using this
      have hgoal : (c :: a0) ++ t ++ b = c :: (a0 ++ t ++ b) := by simp
      rw [hgoal, pyReplaceFuel_cons_neg t r n c (a0 ++ t ++ b) h0]
      rw [ih b n (by simpa using Nat.le_of_succ_le_succ (by simpa [hgoal] using hn))
        (fun i hi => by
          have := ha (i + 1) (by simp; omega)
          simpa [hgoal] using this)
        hb]
      simp

theorem pyReplace_structured (a t b r : List Char) (ht : t ≠ [])
    (ha : ∀ i, i < a.length → t.isPrefixOf ((a ++ t ++ b).drop i) = false)
    (hb : ∀ i, i ≤ b.length → t.isPrefixOf (b.drop i) = false) :
    pyReplace (a ++ t ++ b) t r = a ++ r ++ b := by
  unfold pyReplace
  rw [if_neg ht]
  exact pyReplaceFuel_structured t r ht a b (a ++ t ++ b).length (Nat.le_refl _) ha hb

/-! Lemmas about the regex matcher and the `re.sub` scan. -/

theorem matchHead_rest_lt (s : List Char) (lab : Option (List Char)) (s1 : List Char)
    (h : matchHead s = some (lab, s1)) : s1.length < s.length := by
  unfold matchHead at h
  by_cases hp : List.isPrefixOf ['!', '[', ']'] s = true
  · rw [if_pos hp] at h
    simp only [Option.some.injEq, Prod.mk.injEq] at h
    obtain ⟨-, h2⟩ := h
    subst h2
    have h3 : 3 ≤ s.length := by
      have := (List.isPrefixOf_iff_prefix.mp hp).length_le
      simpa using this
    simp only [List.length_drop]
    omega
  · rw [if_neg hp] at h
    split at h
    · rename_i s0
      split at h
      · rename_i s2 heq2
        split at h
        · cases h
        · simp only [Option.some.injEq, Prod.mk.injEq] at h
          obtain ⟨-, h2⟩ := h
          subst h2
          have hle : (List.dropWhile (fun c => c != ']') s0).length ≤ s0.length :=
            length_dropWhile_le _ _
          rw [heq2] at hle
          simp only [List.length_cons] at hle
          simp only [List.length_cons]
          omega
      · cases h
    · cases h

theorem matchAt_rest_lt (s : List Char) (m : LinkMatch) (rest : List Char)
    (h : matchAt s = some (m, rest)) : rest.length < s.length := by
  unfold matchAt at h
  cases hh : matchHead s with
  | none => rw [hh] at h; cases h
  | some p =>
    obtain ⟨lab, s1⟩ := p
    rw [hh] at h
    have hs1 : s1.length < s.length := matchHead_rest_lt s lab s1 hh
    simp only at h
    split at h
    · rename_i s2
      split at h
      · cases h
      · rename_i g3 anc heq2
        split at h
        · rename_i s3 heq3
          simp only [Option.some.injEq, Prod.mk.injEq] at h
          obtain ⟨-, h2⟩ := h
          subst h2
          have hle : (List.dropWhile (fun c => c != ')') s2).length ≤ s2.length :=
            length_dropWhile_le _ _
          rw [heq3] at hle
          simp only [List.length_cons] at hle hs1
          omega
        · cases h
    · cases h

theorem matchAt_nil : matchAt [] = none := rfl

theorem matchHead_none_of_head (c : Char) (s : List Char) (h1 : c ≠ '[') (h2 : c ≠ '!') :
    matchHead (c :: s) = none := by
  unfold matchHead
  rw [if_neg]
  · split
    · rename_i s1 heq
      exfalso
      exact h1 (List.cons.inj heq).1
    · rfl
  · intro hp
    simp only [List.isPrefixOf, Bool.and_eq_true, beq_iff_eq] at hp
    exact h2 hp.1.symm

theorem matchAt_none_of_head (c : Char) (s : List Char) (h1 : c ≠ '[') (h2 : c ≠ '!') :
    matchAt (c :: s) = none := by
  unfold matchAt
  rw [matchHead_none_of_head c s h1 h2]

theorem matchAt_empty_label (rest : List Char) : matchAt ('[' :: ']' :: rest) = none := by
  unfold matchAt matchHead
  rw [if_neg (by simp [List.isPrefixOf])]
  simp [List.takeWhile, List.dropWhile]

theorem matchHead_labeled (lbl rest : List Char) (hne : lbl ≠ [])
    (hlbl : ∀ c ∈ lbl, c ≠ ']') :
    matchHead ('[' :: (lbl ++ ']' :: rest)) = some (some lbl, rest) := by
  unfold matchHead
  rw [if_neg (by simp [List.isPrefixOf])]
  simp only
  rw [takeWhile_middle _ lbl ']' rest (fun c hc => by simp [hlbl c hc]) (by simp),
    dropWhile_middle _ lbl ']' rest (fun c hc => by simp [hlbl c hc]) (by simp)]
  simp [hne]

theorem matchAt_labeled (lbl tgt suffix : List Char) (hne : lbl ≠ [])
    (hlbl : ∀ c ∈ lbl, c ≠ ']') (htgt : ∀ c ∈ tgt, c ≠ ')') :
    matchAt ('[' :: (lbl ++ ']' :: '(' :: (tgt ++ ')' :: suffix)))
      = match splitTarget tgt with
        | some (g3, anc) => some (⟨some lbl, g3, anc⟩, suffix)
        | none => none := by
  unfold matchAt
  rw [matchHead_labeled lbl ('(' :: (tgt ++ ')' :: suffix)) hne hlbl]
  simp only
  rw [takeWhile_middle _ tgt ')' suffix (fun c hc => by simp [htgt c hc]) (by simp),
    dropWhile_middle _ tgt ')' suffix (fun c hc => by simp [htgt c hc]) (by simp)]
  cases hsp : splitTarget tgt with
  | none => simp
  | some p =>
    obtain ⟨g3, anc⟩ := p
    simp

theorem rewriteFuel_nil (ctx : AutoLinkReplacer) (n : Nat) (miss : MissingRegistry) :
    rewriteFuel ctx n [] miss = ([], miss) := by
  cases n <;> rfl

theorem rewriteFuel_cons_match (ctx : AutoLinkReplacer) (n : Nat) (c : Char)
    (s : List Char) (miss : MissingRegistry) (m : LinkMatch) (rest : List Char)
    (h : matchAt (c :: s) = some (m, rest)) :
    rewriteFuel ctx (n + 1) (c :: s) miss =
      ((AutoLinkReplacer.call ctx miss m).1
          ++ (rewriteFuel ctx n rest (AutoLinkReplacer.call ctx miss m).2).1,
        (rewriteFuel ctx n rest (AutoLinkReplacer.call ctx miss m).2).2) := by
  simp [rewriteFuel, h]

theorem rewriteFuel_cons_nomatch (ctx : AutoLinkReplacer) (n : Nat) (c : Char)
    (s : List Char) (miss : MissingRegistry) (h : matchAt (c :: s) = none) :
    rewriteFuel ctx (n + 1) (c :: s) miss =
      (c :: (rewriteFuel ctx n s miss).1, (rewriteFuel ctx n s miss).2) := by
  simp [rewriteFuel, h]

theorem rewriteFuel_congr (ctx : AutoLinkReplacer) :
    ∀ n m s miss, s.length ≤ n → s.length ≤ m →
      rewriteFuel ctx n s miss = rewriteFuel ctx m s miss := by
  intro n
  induction n with
  | zero =>
    intro m s miss hn _
    have : s = [] := List.eq_nil_of_length_eq_zero (Nat.le_zero.mp hn)
    subst this
    rw [rewriteFuel_nil, rewriteFuel_nil]
  | succ n ih =>
    intro m s miss hn hm
    cases s with
    | nil => rw [rewriteFuel_nil, rewriteFuel_nil]
    | cons c s0 =>
      cases m with
      | zero => simp at hm
      | succ m =>
        cases hma : matchAt (c :: s0) with
        | some p =>
          obtain ⟨mm, rest⟩ := p
          have hrl : rest.length < (c :: s0).length := matchAt_rest_lt _ _ _ hma
          simp only [List.length_cons] at hn hm hrl
          rw [rewriteFuel_cons_match ctx n c s0 miss mm rest hma,
            rewriteFuel_cons_match ctx m c s0 miss mm rest hma,
            ih m rest _ (by omega) (by omega)]
        | none =>
          simp only [List.length_cons] at hn hm
          rw [rewriteFuel_cons_nomatch ctx n c s0 miss hma,
            rewriteFuel_cons_nomatch ctx m c s0 miss hma,
            ih m s0 miss (by omega) (by omega)]

theorem rewriteFuel_nomatch (ctx : AutoLinkReplacer) :
    ∀ n s miss, s.length ≤ n → (∀ i, matchAt (s.drop i) = none) →
      rewriteFuel ctx n s miss = (s, miss) := by
  intro n
  induction n with
  | zero =>
    intro s miss hn _
    have : s = [] := List.eq_nil_of_length_eq_zero (Nat.le_zero.mp hn)
    subst this
    exact rewriteFuel_nil ctx 0 miss
  | succ n ih =>
    intro s miss hn hno
    cases s with
    | nil => exact rewriteFuel_nil ctx (n + 1) miss
    | cons c s0 =>
      have h0 : matchAt (c :: s0) = none := by
        have := hno 0
        simpa using this
      rw [rewriteFuel_cons_nomatch ctx n c s0 miss h0]
      simp only [List.length_cons] at hn
      rw [ih s0 miss (by omega) (fun i => by
        have := hno (i + 1)
        simpa using this)]

theorem re_sub_nomatch (ctx : AutoLinkReplacer) (s : List Char) (miss : MissingRegistry)
    (hno : ∀ i, matchAt (s.drop i) = none) : re_sub ctx s miss = (s, miss) :=
  rewriteFuel_nomatch ctx s.length s miss (Nat.le_refl _) hno

theorem re_sub_single (ctx : AutoLinkReplacer) (s : List Char) (miss : MissingRegistry)
    (m : LinkMatch) (h : matchAt s = some (m, [])) :
    re_sub ctx s miss = AutoLinkReplacer.call ctx miss m := by
  cases s with
  | nil => rw [matchAt_nil] at h; cases h
  | cons c s0 =>
    unfold re_sub
    simp only [List.length_cons]
    rw [rewriteFuel_cons_match ctx _ c s0 miss m [] h, rewriteFuel_nil]
    simp

/-! Character-level facts about `quote` output. -/

/-- The characters `quote` can emit: safe characters, `%`, and uppercase
hex digits. -/
def qOk (c : Char) : Bool :=
  isSafeChar c || c == '%' || (("0123456789ABCDEF".data).contains c)

theorem qOk_hexDigit (n : Nat) : qOk (hexDigit n) = true := by
  have hlt : n % 16 < 16 := Nat.mod_lt _ (by omega)
  have hfix : hexDigit n = hexDigit (n % 16) := by
    simp [hexDigit, Nat.mod_eq_of_lt hlt]
  rw [hfix]
  revert hlt
  have hball : ∀ m, m < 16 → qOk (hexDigit m) = true := by decide
  exact hball (n % 16)

theorem qOk_of_mem_quote (s : List Char) : ∀ c ∈ quote s, qOk c = true := by
  intro c hc
  unfold quote at hc
  rw [List.mem_flatten] at hc
  obtain ⟨l, hl, hcl⟩ := hc
  rw [List.mem_map] at hl
  obtain ⟨a, -, rfl⟩ := hl
  by_cases hs : isSafeChar a = true
  · rw [if_pos hs] at hcl
    simp only [List.mem_singleton] at hcl
    subst hcl
    simp [qOk, hs]
  · rw [if_neg hs] at hcl
    rw [List.mem_flatten] at hcl
    obtain ⟨pb, hpb, hcpb⟩ := hcl
    rw [List.mem_map] at hpb
    obtain ⟨b, -, rfl⟩ := hpb
    simp only [percentByte, List.mem_cons, List.mem_singleton] at hcpb
    rcases hcpb with rfl | rfl | h
    · simp [qOk]
    · exact qOk_hexDigit _
    · simp only [List.mem_singleton, List.not_mem_nil, or_false] at h
      subst h
      exact qOk_hexDigit _

theorem quote_chars (s : List Char) :
    ∀ c ∈ quote s, c ≠ ')' ∧ c ≠ '#' ∧ c ≠ '[' ∧ c ≠ '!' ∧ pyIsWs c = false := by
  intro c hc
  have hq := qOk_of_mem_quote s c hc
  refine ⟨?_, ?_, ?_, ?_, ?_⟩
  · rintro rfl; exact absurd hq (by decide)
  · rintro rfl; exact absurd hq (by decide)
  · rintro rfl; exact absurd hq (by decide)
  · rintro rfl; exact absurd hq (by decide)
  · by_contra hws
    rw [Bool.not_eq_false] at hws
    have hmem : c ∈ wsChars := by
      unfold pyIsWs at hws
      exact of_decide_eq_true hws
    have hall : ∀ x ∈ wsChars, qOk x = false := by decide
    rw [hall c hmem] at hq
    cases hq

theorem dropWhile_eq_self_of (p : Char → Bool) (l : List Char)
    (h : ∀ c ∈ l, p c = false) : l.dropWhile p = l := by
  cases l with
  | nil => rfl
  | cons c t => simp [List.dropWhile, h c (by simp)]

theorem pyStrip_no_ws (l : List Char) (h : ∀ c ∈ l, pyIsWs c = false) :
    pyStrip l = l := by
  unfold pyStrip
  rw [dropWhile_eq_self_of _ _ h,
    dropWhile_eq_self_of _ _ (fun c hc => h c (by simpa using hc)), List.reverse_reverse]

theorem pyStrip_quote (s : List Char) : pyStrip (quote s) = quote s :=
  pyStrip_no_ws _ (fun c hc => (quote_chars s c hc).2.2.2.2)

/-! Lemmas about the registries. -/

theorem alookup_append {β : Type} (l1 l2 : List (List Char × β)) (k : List Char) :
    alookup (l1 ++ l2) k =
      match alookup l1 k with
      | some v => some v
      | none => alookup l2 k := by
  induction l1 with
  | nil => simp [alookup]
  | cons e t ih =>
    obtain ⟨k0, v0⟩ := e
    by_cases h : k0 = k
    · simp [alookup, h]
    · simp only [List.cons_append, alookup, if_neg h]
      exact ih

theorem alookup_dupAppend_self (d : DuplicateRegistry) (k x : List Char) :
    alookup (dupAppend d k x) k = some ((alookup d k).getD [] ++ [x]) := by
  induction d with
  | nil => simp [dupAppend, alookup]
  | cons e t ih =>
    obtain ⟨k0, l0⟩ := e
    by_cases h : k0 = k
    · subst h
      simp [dupAppend, alookup]
    · simp [dupAppend, alookup, h, ih]

theorem alookup_dupAppend_ne (d : DuplicateRegistry) (k x q : List Char) (h : q ≠ k) :
    alookup (dupAppend d k x) q = alookup d q := by
  have hk : ¬ k = q := fun e => h e.symm
  induction d with
  | nil => simp [dupAppend, alookup, hk]
  | cons e t ih =>
    obtain ⟨k0, l0⟩ := e
    by_cases h0 : k0 = k
    · subst h0
      simp [dupAppend, alookup, hk]
    · by_cases h1 : k0 = q
      · subst h1
        simp [dupAppend, alookup, h0]
      · simp [dupAppend, alookup, h0, h1, ih]

theorem alookup_counterIncr_self (c : List (List Char × Nat)) (p : List Char) :
    alookup (counterIncr c p) p = some ((alookup c p).getD 0 + 1) := by
  induction c with
  | nil => simp [counterIncr, alookup]
  | cons e t ih =>
    obtain ⟨k0, n0⟩ := e
    by_cases h : k0 = p
    · subst h
      simp [counterIncr, alookup]
    · simp [counterIncr, alookup, h, ih]

theorem alookup_counterIncr_ne (c : List (List Char × Nat)) (p q : List Char) (h : q ≠ p) :
    alookup (counterIncr c p) q = alookup c q := by
  have hp : ¬ p = q := fun e => h e.symm
  induction c with
  | nil => simp [counterIncr, alookup, hp]
  | cons e t ih =>
    obtain ⟨k0, n0⟩ := e
    by_cases h0 : k0 = p
    · subst h0
      simp [counterIncr, alookup, hp]
    · by_cases h1 : k0 = q
      · subst h1
        simp [counterIncr, alookup, h0]
      · simp [counterIncr, alookup, h0, h1, ih]

theorem alookup_missingIncr_self (m : MissingRegistry) (f p : List Char) :
    alookup (missingIncr m f p) f = some (counterIncr ((alookup m f).getD []) p) := by
  induction m with
  | nil => simp [missingIncr, alookup]
  | cons e t ih =>
    obtain ⟨k0, c0⟩ := e
    by_cases h : k0 = f
    · subst h
      simp [missingIncr, alookup]
    · simp [missingIncr, alookup, h, ih]

theorem alookup_missingIncr_ne (m : MissingRegistry) (f p g : List Char) (h : g ≠ f) :
    alookup (missingIncr m f p) g = alookup m g := by
  have hf : ¬ f = g := fun e => h e.symm
  induction m with
  | nil => simp [missingIncr, alookup, hf]
  | cons e t ih =>
    obtain ⟨k0, c0⟩ := e
    by_cases h0 : k0 = f
    · subst h0
      simp [missingIncr, alookup, hf]
    · by_cases h1 : k0 = g
      · subst h1
        simp [missingIncr, alookup, h0]
      · simp [missingIncr, alookup, h0, h1, ih]

/-- Occurrence count recorded in the missing registry for a
(filename, referencing document) pair. -/
def missCount (reg : MissingRegistry) (f p : List Char) : Nat :=
  (alookup ((alookup reg f).getD []) p).getD 0

theorem missCount_incr_self (reg : MissingRegistry) (f p : List Char) :
    missCount (missingIncr reg f p) f p = missCount reg f p + 1 := by
  unfold missCount
  rw [alookup_missingIncr_self, Option.getD_some, alookup_counterIncr_self, Option.getD_some]

theorem missCount_incr_other (reg : MissingRegistry) (f p g q : List Char)
    (h : g ≠ f ∨ q ≠ p) : missCount (missingIncr reg f p) g q = missCount reg g q := by
  unfold missCount
  by_cases hg : g = f
  · subst hg
    have hq : q ≠ p := by
      rcases h with h | h
      · exact absurd rfl h
      · exact h
    rw [alookup_missingIncr_self, Option.getD_some, alookup_counterIncr_ne _ _ _ hq]
  · rw [alookup_missingIncr_ne _ _ _ _ hg]

/-! The hit branch of the replacer, and the index builder. -/

theorem group0_eq (m : LinkMatch) :
    group0 m = headPart m ++ m.g3 ++ (m.anchors ++ [')']) := by
  unfold group0
  simp [List.append_assoc]

/-- Structure of a successful lookup: the whole match is rewritten by
`str.replace`; when the filename has no occurrence inside the head part
(label and brackets) nor inside the anchor-and-closing-paren part, the
result keeps head and anchors and swaps in the encoded relative path. -/
theorem call_hit (ctx : AutoLinkReplacer) (miss : MissingRegistry) (m : LinkMatch)
    (P : List Char)
    (hres : alookup ctx.filename_to_abs_path (pyStrip m.g3) = some P)
    (hg3 : m.g3 ≠ [])
    (ha : ∀ i, i < (headPart m).length → m.g3.isPrefixOf ((group0 m).drop i) = false)
    (hb : ∀ i, i ≤ (m.anchors ++ [')']).length →
      m.g3.isPrefixOf ((m.anchors ++ [')']).drop i) = false) :
    AutoLinkReplacer.call ctx miss m =
      (headPart m ++ quote (pyRelpath P (pyDirname ctx.abs_page_path))
        ++ (m.anchors ++ [')']), miss) := by
  have hcall : AutoLinkReplacer.call ctx miss m =
      match alookup ctx.filename_to_abs_path (pyStrip m.g3) with
      | none =>
        (group0 m, missingIncr miss (pyStrip m.g3)
          (pyRelpath ctx.abs_page_path ctx.base_docs_dir))
      | some abs_link_path =>
        (pyReplace (group0 m) m.g3
          (quote (pyRelpath abs_link_path (pyDirname ctx.abs_page_path))), miss) := rfl
  rw [hcall, hres]
  simp only
  rw [group0_eq] at ha ⊢
  rw [pyReplace_structured (headPart m) m.g3 (m.anchors ++ [')']) _ hg3 ha hb]

/-- The miss branch of the replacer: text kept, one occurrence recorded. -/
theorem call_miss (ctx : AutoLinkReplacer) (miss : MissingRegistry) (m : LinkMatch)
    (hres : alookup ctx.filename_to_abs_path (pyStrip m.g3) = none) :
    AutoLinkReplacer.call ctx miss m =
      (group0 m, missingIncr miss (pyStrip m.g3)
        (pyRelpath ctx.abs_page_path ctx.base_docs_dir)) := by
  have hcall : AutoLinkReplacer.call ctx miss m =
      match alookup ctx.filename_to_abs_path (pyStrip m.g3) with
      | none =>
        (group0 m, missingIncr miss (pyStrip m.g3)
          (pyRelpath ctx.abs_page_path ctx.base_docs_dir))
      | some abs_link_path =>
        (pyReplace (group0 m) m.g3
          (quote (pyRelpath abs_link_path (pyDirname ctx.abs_page_path))), miss) := rfl
  rw [hcall, hres]

theorem initIndexAux_lookup (docs_dir : List Char) :
    ∀ (fs : List MkFile) (idx : FilenameIndex) (dup : DuplicateRegistry) (k : List Char),
      alookup (initIndexAux docs_dir fs idx dup).1 k =
        match alookup idx k with
        | some v => some v
        | none =>
          (fs.find? (fun f => decide (pyBasename f.abs_src_path = k))).map
            MkFile.abs_src_path := by
  intro fs
  induction fs with
  | nil =>
    intro idx dup k
    cases h : alookup idx k <;> simp [initIndexAux, h]
  | cons f ft ih =>
    intro idx dup k
    cases hidx : alookup idx (pyBasename f.abs_src_path) with
    | some ex =>
      simp only [initIndexAux, hidx]
      rw [ih]
      by_cases hk : pyBasename f.abs_src_path = k
      · rw [← hk, hidx]
      · cases hik : alookup idx k with
        | some v => simp
        | none => simp [List.find?, hk]
    | none =>
      simp only [initIndexAux, hidx]
      rw [ih, alookup_append]
      by_cases hk : pyBasename f.abs_src_path = k
      · rw [← hk, hidx]
        simp [alookup, List.find?]
      · cases hik : alookup idx k with
        | some v => simp [hik]
        | none => simp [hik, alookup, hk, List.find?]

theorem alookup_eq_none_iff {β : Type} (l : List (List Char × β)) (k : List Char) :
    alookup l k = none ↔ k ∉ l.map Prod.fst := by
  induction l with
  | nil =>
    constructor
    · intro _ hmem
      simp at hmem
    · intro _
      rfl
  | cons e t ih =>
    obtain ⟨k0, v0⟩ := e
    by_cases h : k0 = k
    · subst h
      constructor
      · intro hco
        rw [alookup, if_pos rfl] at hco
        cases hco
      · intro hm
        exact absurd (List.mem_map.mpr ⟨(k0, v0), List.mem_cons_self _ _, rfl⟩) hm
    · rw [alookup, if_neg h, ih]
      constructor
      · intro hm hmem
        rcases List.mem_cons.mp hmem with h1 | h1
        · exact h h1.symm
        · exact hm h1
      · intro hm hmem
        exact hm (List.mem_cons_of_mem _ hmem)

theorem initIndexAux_keys_nodup (docs_dir : List Char) :
    ∀ (fs : List MkFile) (idx : FilenameIndex) (dup : DuplicateRegistry),
      (idx.map Prod.fst).Nodup →
      ((initIndexAux docs_dir fs idx dup).1.map Prod.fst).Nodup := by
  intro fs
  induction fs with
  | nil => intro idx dup h; exact h
  | cons f ft ih =>
    intro idx dup h
    cases hidx : alookup idx (pyBasename f.abs_src_path) with
    | some ex =>
      simp only [initIndexAux, hidx]
      exact ih _ _ h
    | none =>
      simp only [initIndexAux, hidx]
      refine ih _ _ ?_
      have hnm : pyBasename f.abs_src_path ∉ idx.map Prod.fst :=
        (alookup_eq_none_iff idx _).mp hidx
      simp [List.nodup_append, h, hnm]

/-- What the duplicate registry's entry for a key becomes after a batch of
colliding occurrences: nothing happens without occurrences; otherwise the
winner's relative path is prepended once if and only if the entry was
still empty, then every occurrence's `src_path` is appended. -/
def extendDup (cur : Option (List (List Char))) (winnerRel : List Char)
    (occs : List MkFile) : Option (List (List Char)) :=
  match occs with
  | [] => cur
  | _ :: _ =>
    some ((if cur.getD [] = [] then [winnerRel] else cur.getD [])
      ++ occs.map MkFile.src_path)

theorem initIndexAux_dup_lookup (docs_dir : List Char) :
    ∀ (fs : List MkFile) (idx : FilenameIndex) (dup : DuplicateRegistry) (k : List Char),
      alookup (initIndexAux docs_dir fs idx dup).2 k =
        match alookup idx k with
        | some w =>
          extendDup (alookup dup k) (pyRelpath w docs_dir)
            (fs.filter (fun f => decide (pyBasename f.abs_src_path = k)))
        | none =>
          match fs.filter (fun f => decide (pyBasename f.abs_src_path = k)) with
          | [] => alookup dup k
          | o1 :: rest =>
            extendDup (alookup dup k) (pyRelpath o1.abs_src_path docs_dir) rest := by
  intro fs
  induction fs with
  | nil =>
    intro idx dup k
    cases h : alookup idx k <;> simp [initIndexAux, extendDup, h]
  | cons f ft ih =>
    intro idx dup k
    by_cases hk : pyBasename f.abs_src_path = k
    · subst hk
      have hfilter :
          (f :: ft).filter
              (fun g => decide (pyBasename g.abs_src_path = pyBasename f.abs_src_path)) =
            f :: ft.filter
              (fun g => decide (pyBasename g.abs_src_path = pyBasename f.abs_src_path)) := by
        simp [List.filter]
      cases hidx : alookup idx (pyBasename f.abs_src_path) with
      | some ex =>
        simp only [initIndexAux, hidx]
        rw [ih, hidx, hfilter]
        by_cases hcur : (alookup dup (pyBasename f.abs_src_path)).getD [] = []
        · rw [if_pos hcur]
          have hd1 : alookup
              (dupAppend (dupAppend dup (pyBasename f.abs_src_path)
                  (pyRelpath ex docs_dir))
                (pyBasename f.abs_src_path) f.src_path) (pyBasename f.abs_src_path) =
              some ([pyRelpath ex docs_dir] ++ [f.src_path]) := by
            rw [alookup_dupAppend_self, alookup_dupAppend_self, hcur]
            simp
          rw [hd1]
          cases hft : ft.filter
              (fun g => decide (pyBasename g.abs_src_path = pyBasename f.abs_src_path)) with
          | nil => simp [extendDup, hcur]
          | cons r1 rs => simp [extendDup, hcur]
        · rw [if_neg hcur]
          have hd1 : alookup
              (dupAppend dup (pyBasename f.abs_src_path) f.src_path)
                (pyBasename f.abs_src_path) =
              some ((alookup dup (pyBasename f.abs_src_path)).getD [] ++ [f.src_path]) := by
            rw [alookup_dupAppend_self]
          rw [hd1]
          cases hft : ft.filter
              (fun g => decide (pyBasename g.abs_src_path = pyBasename f.abs_src_path)) with
          | nil => simp [extendDup, hcur]
          | cons r1 rs => simp [extendDup, hcur]
      | none =>
        simp only [initIndexAux, hidx]
        rw [ih]
        have hidx2 : alookup
            (idx ++ [(pyBasename f.abs_src_path, f.abs_src_path)])
            (pyBasename f.abs_src_path) = some f.abs_src_path := by
          rw [alookup_append, hidx]
          simp [alookup]
        simp only [hidx2, hfilter]
    · have hfilter :
          (f :: ft).filter (fun g => decide (pyBasename g.abs_src_path = k)) =
            ft.filter (fun g => decide (pyBasename g.abs_src_path = k)) := by
        simp [List.filter, hk]
      cases hidxb : alookup idx (pyBasename f.abs_src_path) with
      | some ex =>
        simp only [initIndexAux, hidxb]
        rw [ih, hfilter]
        have hdup2 : alookup
            (dupAppend
              (if (alookup dup (pyBasename f.abs_src_path)).getD [] = [] then
                dupAppend dup (pyBasename f.abs_src_path) (pyRelpath ex docs_dir)
               else dup)
              (pyBasename f.abs_src_path) f.src_path) k = alookup dup k := by
          rw [alookup_dupAppend_ne _ _ _ _ (fun e => hk e.symm)]
          by_cases hcur : (alookup dup (pyBasename f.abs_src_path)).getD [] = []
          · rw [if_pos hcur, alookup_dupAppend_ne _ _ _ _ (fun e => hk e.symm)]
          · rw [if_neg hcur]
        rw [hdup2]
      | none =>
        simp only [initIndexAux, hidxb]
        rw [ih, hfilter]
        have hidx2 : alookup (idx ++ [(pyBasename f.abs_src_path, f.abs_src_path)]) k
            = alookup idx k := by
          rw [alookup_append]
          cases hik : alookup idx k with
          | some v => simp
          | none => simp [alookup, hk]
        rw [hidx2]

/-! Further helper lemmas for the claims. -/

theorem splitTargetAux_spec (T : List Char) :
    ∀ n g3 anc, splitTargetAux T n = some (g3, anc) →
      g3 ++ anc = T ∧ (anc = [] ∨ anc.head? = some '#') := by
  intro n
  induction n with
  | zero => intro g3 anc h; cases h
  | succ n ih =>
    intro g3 anc h
    unfold splitTargetAux at h
    cases htry : trySplitAt T (n + 1) with
    | some res =>
      rw [htry] at h
      simp only [Option.some.injEq] at h
      subst h
      unfold trySplitAt at htry
      split at htry
      · split at htry
        · rename_i e heqe
          split at htry
          · rename_i hrest
            simp only [Option.some.injEq, Prod.mk.injEq] at htry
            obtain ⟨h1, h2⟩ := htry
            subst h1
            subst h2
            exact ⟨List.take_append_drop _ T, hrest⟩
          · cases htry
        · cases htry
      · cases htry
    | none =>
      rw [htry] at h
      exact ih g3 anc h

theorem splitTarget_spec (T g3 anc : List Char) (h : splitTarget T = some (g3, anc)) :
    g3 ++ anc = T ∧ (anc = [] ∨ anc.head? = some '#') :=
  splitTargetAux_spec T T.length g3 anc h

theorem matchAt_drop_none (l : List Char) (h : ∀ c ∈ l, c ≠ '[' ∧ c ≠ '!') :
    ∀ i, matchAt (l.drop i) = none := by
  intro i
  cases hd : l.drop i with
  | nil => exact matchAt_nil
  | cons c t =>
    have hc : c ∈ l := List.drop_subset i l (by rw [hd]; exact List.mem_cons_self c t)
    exact matchAt_none_of_head c t (h c hc).1 (h c hc).2

theorem no_occ_rparen (k : List Char) (hkne : k ≠ []) (hkp : ∀ c ∈ k, c ≠ ')') :
    ∀ i, i ≤ ([')'] : List Char).length →
      k.isPrefixOf (([')'] : List Char).drop i) = false := by
  intro i hi
  cases i with
  | zero =>
    cases k with
    | nil => exact absurd rfl hkne
    | cons c t =>
      have hc : c ≠ ')' := hkp c (List.mem_cons_self c t)
      simp [List.isPrefixOf, hc]
  | succ j =>
    simp only [List.length_cons, List.length_nil] at hi
    have hj : j = 0 := by omega
    subst hj
    exact isPrefixOf_nil_false k hkne

theorem strLe_total : ∀ a b : List Char, (strLe a b || strLe b a) = true := by
  intro a
  induction a with
  | nil => intro b; simp [strLe]
  | cons c as ih =>
    intro b
    cases b with
    | nil => simp [strLe]
    | cons d bs =>
      simp only [strLe]
      by_cases h1 : c.toNat < d.toNat
      · simp [h1]
      · by_cases h2 : d.toNat < c.toNat
        · simp [h1, h2]
        · simp [h1, h2, ih bs]

theorem strLe_trans :
    ∀ a b c : List Char, strLe a b = true → strLe b c = true → strLe a c = true := by
  intro a
  induction a with
  | nil => intro b c h1 h2; simp [strLe]
  | cons x as ih =>
    intro b c h1 h2
    cases b with
    | nil => simp [strLe] at h1
    | cons y bs =>
      cases c with
      | nil => simp [strLe] at h2
      | cons z cs =>
        simp only [strLe] at h1 h2 ⊢
        by_cases hxy : x.toNat < y.toNat
        · rw [if_pos hxy] at h1
          by_cases hyz : y.toNat < z.toNat
          · rw [if_pos (by omega : x.toNat < z.toNat)]
          · by_cases hzy : z.toNat < y.toNat
            · rw [if_neg hyz, if_pos hzy] at h2
              cases h2
            · rw [if_pos (by omega : x.toNat < z.toNat)]
        · by_cases hyx : y.toNat < x.toNat
          · rw [if_neg hxy, if_pos hyx] at h1
            cases h1
          · rw [if_neg hxy, if_neg hyx] at h1
            by_cases hyz : y.toNat < z.toNat
            · rw [if_pos (by omega : x.toNat < z.toNat)]
            · by_cases hzy : z.toNat < y.toNat
              · rw [if_neg hyz, if_pos hzy] at h2
                cases h2
              · rw [if_neg hyz, if_neg hzy] at h2
                rw [if_neg (by omega : ¬ x.toNat < z.toNat),
                  if_neg (by omega : ¬ z.toNat < x.toNat)]
                exact ih bs cs h1 h2

/-! The claims. -/

/-- C3: for every sequence of files given to the index builder, the
resulting filename index has pairwise-distinct basename keys (exactly one
entry per basename) and maps each basename to the absolute path of the
first file in the sequence with that basename; files seen later with the
same basename never overwrite the entry, and the builder is a total
function, so no error is raised for duplicates. -/
theorem c3_index_first_wins (files : List MkFile) (docs_dir k : List Char) :
    alookup (init_index files docs_dir).1 k =
      (files.find? (fun f => decide (pyBasename f.abs_src_path = k))).map
        MkFile.abs_src_path
    ∧ ((init_index files docs_dir).1.map Prod.fst).Nodup := by
  constructor
  · rw [init_index, initIndexAux_lookup]
    rfl
  · exact initIndexAux_keys_nodup docs_dir files [] [] (by simp)

/-- C4: a basename is a key of the duplicate registry exactly when it
occurs at least twice in the file sequence, and its recorded list is the
relative paths of all its occurrences in discovery order, the winning file
first (the winner is recorded via `relpath(abs, docs_dir)`, which equals
its `src_path` whenever the mkdocs invariant in the hypothesis holds; the
list length is the occurrence count since `map` preserves length). -/
theorem c4_duplicate_registry (files : List MkFile) (docs_dir k : List Char)
    (hsrc : ∀ f ∈ files, pyRelpath f.abs_src_path docs_dir = f.src_path) :
    alookup (init_index files docs_dir).2 k =
      if 2 ≤ (files.filter (fun f => decide (pyBasename f.abs_src_path = k))).length
      then some ((files.filter (fun f => decide (pyBasename f.abs_src_path = k))).map
        MkFile.src_path)
      else none := by
  rw [init_index, initIndexAux_dup_lookup]
  have h0 : alookup ([] : FilenameIndex) k = none := rfl
  rw [h0]
  simp only
  cases hf : files.filter (fun f => decide (pyBasename f.abs_src_path = k)) with
  | nil => simp [alookup]
  | cons o1 rest =>
    cases rest with
    | nil => simp [extendDup, alookup]
    | cons o2 rs =>
      have ho1 : pyRelpath o1.abs_src_path docs_dir = o1.src_path := by
        apply hsrc
        have hmem : o1 ∈ files.filter (fun f => decide (pyBasename f.abs_src_path = k)) := by
          rw [hf]
          exact List.mem_cons_self _ _
        exact List.mem_of_mem_filter hmem
      simp [extendDup, alookup, ho1]

/-- C4 witness: inserting a/x.md, b/x.md, c/x.md under docs root /d yields
the registry entry x.md with all three relative paths in order. -/
theorem c4_duplicate_registry_witness :
    (∀ f ∈ ([⟨"/d/a/x.md".data, "a/x.md".data⟩, ⟨"/d/b/x.md".data, "b/x.md".data⟩,
        ⟨"/d/c/x.md".data, "c/x.md".data⟩] : List MkFile),
      pyRelpath f.abs_src_path "/d".data = f.src_path)
    ∧ alookup (init_index [⟨"/d/a/x.md".data, "a/x.md".data⟩,
          ⟨"/d/b/x.md".data, "b/x.md".data⟩, ⟨"/d/c/x.md".data, "c/x.md".data⟩]
          "/d".data).2 "x.md".data =
        if 2 ≤ (([⟨"/d/a/x.md".data, "a/x.md".data⟩, ⟨"/d/b/x.md".data, "b/x.md".data⟩,
            ⟨"/d/c/x.md".data, "c/x.md".data⟩] : List MkFile).filter
            (fun f => decide (pyBasename f.abs_src_path = "x.md".data))).length
        then some ((([⟨"/d/a/x.md".data, "a/x.md".data⟩, ⟨"/d/b/x.md".data, "b/x.md".data⟩,
            ⟨"/d/c/x.md".data, "c/x.md".data⟩] : List MkFile).filter
            (fun f => decide (pyBasename f.abs_src_path = "x.md".data))).map
          MkFile.src_path)
        else none :=
  ⟨by decide, c4_duplicate_registry _ _ _ (by decide)⟩

/-- C5: when the trimmed filename of a recognized link is not a key of the
index, the replacer returns the match text byte-for-byte unchanged and
bumps the missing-registry counter for (filename, relative path of the
linking document) by exactly one, leaving every other counter unchanged;
the embedding is total, so nothing is raised. -/
theorem c5_missing_registry (ctx : AutoLinkReplacer) (miss : MissingRegistry)
    (m : LinkMatch)
    (hres : alookup ctx.filename_to_abs_path (pyStrip m.g3) = none) :
    (AutoLinkReplacer.call ctx miss m).1 = group0 m
    ∧ missCount (AutoLinkReplacer.call ctx miss m).2 (pyStrip m.g3)
          (pyRelpath ctx.abs_page_path ctx.base_docs_dir)
        = missCount miss (pyStrip m.g3)
            (pyRelpath ctx.abs_page_path ctx.base_docs_dir) + 1
    ∧ ∀ g q, (g ≠ pyStrip m.g3 ∨ q ≠ pyRelpath ctx.abs_page_path ctx.base_docs_dir) →
        missCount (AutoLinkReplacer.call ctx miss m).2 g q = missCount miss g q := by
  rw [call_miss ctx miss m hres]
  exact ⟨rfl, missCount_incr_self _ _ _,
    fun g q h => missCount_incr_other _ _ _ _ _ h⟩

/-- C5 witness: a page /docs/d1.md referencing the unindexed ghost.png. -/
theorem c5_missing_registry_witness :
    alookup (([] : FilenameIndex)) (pyStrip "ghost.png".data) = none
    ∧ (AutoLinkReplacer.call ⟨"/docs".data, "/docs/d1.md".data, []⟩ []
        ⟨some "x".data, "ghost.png".data, []⟩).1
      = group0 ⟨some "x".data, "ghost.png".data, []⟩
    ∧ missCount (AutoLinkReplacer.call ⟨"/docs".data, "/docs/d1.md".data, []⟩ []
          ⟨some "x".data, "ghost.png".data, []⟩).2 (pyStrip "ghost.png".data)
          (pyRelpath "/docs/d1.md".data "/docs".data)
        = missCount [] (pyStrip "ghost.png".data)
            (pyRelpath "/docs/d1.md".data "/docs".data) + 1 :=
  ⟨rfl,
    (c5_missing_registry ⟨"/docs".data, "/docs/d1.md".data, []⟩ []
      ⟨some "x".data, "ghost.png".data, []⟩ rfl).1,
    (c5_missing_registry ⟨"/docs".data, "/docs/d1.md".data, []⟩ []
      ⟨some "x".data, "ghost.png".data, []⟩ rfl).2.1⟩

/-- C8: the report renders the duplicates section and the missing section
over key sequences that are permutations of the registries' keys sorted
ascending by the code-point lexicographic order, and every missing line
consists of the basename, the number of referencing documents recorded for
it (the Counter's keys, one per distinct document), and one indented line
per referencing document with its occurrence count. -/
theorem c8_report_sections (st : AutoLinksPlugin) :
    ∃ dkeys mkeys : List (List Char),
      dkeys.Perm (st.duplicate_filenames.map Prod.fst)
      ∧ mkeys.Perm (st.missing_filenames.map Prod.fst)
      ∧ dkeys.Pairwise (fun a b => strLe a b = true)
      ∧ mkeys.Pairwise (fun a b => strLe a b = true)
      ∧ st.generate_report =
          "# AutoLinksPlugin report\n\n## Duplicate filenames\n\n".data
            ++ List.intercalate ("\n".data) (dkeys.map (dupLine st.duplicate_filenames))
            ++ "\n\n## Missing filenames\n\n".data
            ++ List.intercalate ("\n".data) (mkeys.map (missLine st.missing_filenames))
            ++ "\n".data
      ∧ ∀ fname, missLine st.missing_filenames fname =
          "- [ ] ".data ++ fname ++ ", in ".data
            ++ natToDec ((alookup st.missing_filenames fname).getD []).length
            ++ " file(s)\n".data
            ++ List.intercalate ("\n".data)
              (((alookup st.missing_filenames fname).getD []).map (fun pc =>
                "  - `".data ++ pc.1 ++ "` (".data ++ natToDec pc.2
                  ++ " occurences)".data)) :=
  ⟨(st.duplicate_filenames.map Prod.fst).mergeSort strLe,
    (st.missing_filenames.map Prod.fst).mergeSort strLe,
    List.mergeSort_perm _ _, List.mergeSort_perm _ _,
    List.sorted_mergeSort strLe_trans strLe_total _,
    List.sorted_mergeSort strLe_trans strLe_total _,
    rfl, fun _ => rfl⟩

/-- C9: once the filename index is initialized, a page rewrite pass leaves
both the index and the duplicate registry of the instance unchanged (only
the missing registry can change). -/
theorem c9_frame (st : AutoLinksPlugin) (markdown abs_page_path docs_dir : List Char)
    (files : List MkFile) (idx : FilenameIndex)
    (h : st.filename_to_abs_path = some idx) :
    ((st.on_page_markdown markdown abs_page_path docs_dir files).2).filename_to_abs_path
        = some idx
    ∧ ((st.on_page_markdown markdown abs_page_path docs_dir files).2).duplicate_filenames
        = st.duplicate_filenames := by
  unfold AutoLinksPlugin.on_page_markdown
  simp [h]

/-- C9 witness: an instance whose index is already built. -/
theorem c9_frame_witness :
    ((⟨some [("n.md".data, "/d/n.md".data)], [], []⟩ :
        AutoLinksPlugin).filename_to_abs_path = some [("n.md".data, "/d/n.md".data)])
    ∧ (((⟨some [("n.md".data, "/d/n.md".data)], [], []⟩ :
          AutoLinksPlugin).on_page_markdown "[x](n.md)".data "/d/p.md".data "/d".data
          []).2).filename_to_abs_path = some [("n.md".data, "/d/n.md".data)]
    ∧ (((⟨some [("n.md".data, "/d/n.md".data)], [], []⟩ :
          AutoLinksPlugin).on_page_markdown "[x](n.md)".data "/d/p.md".data "/d".data
          []).2).duplicate_filenames = [] :=
  ⟨rfl,
    (c9_frame _ "[x](n.md)".data "/d/p.md".data "/d".data [] _ rfl).1,
    (c9_frame _ "[x](n.md)".data "/d/p.md".data "/d".data [] _ rfl).2⟩

/-- C10: a non-image link with an empty label is never recognized: the
pattern fails at the start of any text beginning with the two characters
left bracket, right bracket, and a whole document consisting of such a
link is left byte-for-byte unchanged with the missing registry untouched
(for a filename without the two match-starting characters, so that no
other match can begin inside it). -/
theorem c10_empty_label (rest : List Char) (ctx : AutoLinkReplacer)
    (miss : MissingRegistry) (fname : List Char)
    (hf : ∀ c ∈ fname, c ≠ '[' ∧ c ≠ '!') :
    matchAt ('[' :: ']' :: rest) = none
    ∧ re_sub ctx ('[' :: ']' :: '(' :: (fname ++ [')'])) miss
        = ('[' :: ']' :: '(' :: (fname ++ [')']), miss) := by
  refine ⟨matchAt_empty_label rest, re_sub_nomatch ctx _ miss ?_⟩
  intro i
  match i with
  | 0 => exact matchAt_empty_label _
  | 1 => exact matchAt_none_of_head ']' _ (by decide) (by decide)
  | 2 => exact matchAt_none_of_head '(' _ (by decide) (by decide)
  | (j + 3) =>
    show matchAt ((fname ++ [')']).drop j) = none
    refine matchAt_drop_none (fname ++ [')']) ?_ j
    intro c hc
    rcases List.mem_append.mp hc with h1 | h1
    · exact hf c h1
    · simp only [List.mem_singleton] at h1
      subst h1
      exact ⟨by decide, by decide⟩

/-- C10 witness: the text consisting of an empty-label non-image link. -/
theorem c10_empty_label_witness :
    (∀ c ∈ ("x.md".data : List Char), c ≠ '[' ∧ c ≠ '!')
    ∧ matchAt ('[' :: ']' :: ([] : List Char)) = none
    ∧ re_sub ⟨[], [], []⟩ ('[' :: ']' :: '(' :: ("x.md".data ++ [')'])) []
        = ('[' :: ']' :: '(' :: ("x.md".data ++ [')']), []) :=
  ⟨by decide,
    (c10_empty_label [] ⟨[], [], []⟩ [] "x.md".data (by decide)).1,
    (c10_empty_label [] ⟨[], [], []⟩ [] "x.md".data (by decide)).2⟩

/-- C1 counterexample: the rewrite uses `str.replace`, which substitutes
the leftmost occurrence of the filename in the whole match.  With the
indexed filename `.mdz](.md` (a legal basename), the text
`[q.mdz](.mdz](.md)` is a recognized link whose trimmed filename is a key
of the index, yet an occurrence of the filename straddling the label and
the opening bracket is replaced instead, so the rewritten target does not
equal the percent-encoded relative path. -/
theorem c1_counterexample :
    matchAt "[q.mdz](.mdz](.md)".data
      = some (⟨some "q.mdz".data, ".mdz](.md".data, []⟩, [])
    ∧ alookup [(".mdz](.md".data, "/docs/sub/.mdz](.md".data)]
        (pyStrip ".mdz](.md".data) = some "/docs/sub/.mdz](.md".data
    ∧ (re_sub ⟨"/docs".data, "/docs/d.md".data,
          [(".mdz](.md".data, "/docs/sub/.mdz](.md".data)]⟩
          "[q.mdz](.mdz](.md)".data []).1
      ≠ "[q.mdz](".data
          ++ quote (pyRelpath "/docs/sub/.mdz](.md".data (pyDirname "/docs/d.md".data))
          ++ ")".data := by
  refine ⟨by decide, by decide, by decide⟩

/-- C1 (amended): a recognized link whose trimmed filename is a key of the
index is rewritten by replacing, left to right, every occurrence of the
untrimmed filename substring in the matched text with the percent-encoded
path of the indexed absolute location relative to the directory containing
the linking document (not the document root); whenever the filename does
not occur inside the head part of the match nor inside the anchors and
closing paren, the only replaced occurrence is the one in the target, so
the rewritten target equals that encoded relative path (followed by the
unchanged anchor suffix), and the missing registry is untouched. -/
theorem c1_amended_target (ctx : AutoLinkReplacer) (miss : MissingRegistry)
    (m : LinkMatch) (P : List Char)
    (hres : alookup ctx.filename_to_abs_path (pyStrip m.g3) = some P)
    (hg3 : m.g3 ≠ [])
    (ha : ∀ i, i < (headPart m).length → m.g3.isPrefixOf ((group0 m).drop i) = false)
    (hb : ∀ i, i ≤ (m.anchors ++ [')']).length →
      m.g3.isPrefixOf ((m.anchors ++ [')']).drop i) = false) :
    (AutoLinkReplacer.call ctx miss m).1
      = headPart m ++ quote (pyRelpath P (pyDirname ctx.abs_page_path))
        ++ (m.anchors ++ [')'])
    ∧ (AutoLinkReplacer.call ctx miss m).2 = miss := by
  rw [call_hit ctx miss m P hres hg3 ha hb]
  exact ⟨rfl, rfl⟩

/-- C1 amended witness: `[x](n.md)` on page /docs/d.md with n.md indexed
at /docs/a/n.md. -/
theorem c1_amended_target_witness :
    alookup [("n.md".data, "/docs/a/n.md".data)]
        (pyStrip (⟨some "x".data, "n.md".data, []⟩ : LinkMatch).g3)
      = some "/docs/a/n.md".data
    ∧ (⟨some "x".data, "n.md".data, []⟩ : LinkMatch).g3 ≠ []
    ∧ (∀ i, i < (headPart ⟨some "x".data, "n.md".data, []⟩).length →
        ("n.md".data : List Char).isPrefixOf
          ((group0 ⟨some "x".data, "n.md".data, []⟩).drop i) = false)
    ∧ (∀ i, i ≤ ((([] : List Char) ++ [')'])).length →
        ("n.md".data : List Char).isPrefixOf
          (((([] : List Char) ++ [')'])).drop i) = false)
    ∧ (AutoLinkReplacer.call
        ⟨"/docs".data, "/docs/d.md".data, [("n.md".data, "/docs/a/n.md".data)]⟩ []
        ⟨some "x".data, "n.md".data, []⟩).1
      = headPart ⟨some "x".data, "n.md".data, []⟩
        ++ quote (pyRelpath "/docs/a/n.md".data (pyDirname "/docs/d.md".data))
        ++ (([] : List Char) ++ [')']) :=
  ⟨by decide, by decide, by decide, by decide,
    (c1_amended_target
      ⟨"/docs".data, "/docs/d.md".data, [("n.md".data, "/docs/a/n.md".data)]⟩ []
      ⟨some "x".data, "n.md".data, []⟩ "/docs/a/n.md".data
      (by decide) (by decide) (by decide) (by decide)).1⟩

/-- C2 counterexample: the spec example label `[notes.md](notes.md)` with
notes.md resolving to ../x/notes.md: `str.replace` also rewrites the label
occurrence, so the label is not preserved. -/
theorem c2_counterexample :
    (re_sub ⟨"/docs".data, "/docs/y/d.md".data,
        [("notes.md".data, "/docs/x/notes.md".data)]⟩
        "[notes.md](notes.md)".data []).1
      = "[../x/notes.md](../x/notes.md)".data
    ∧ (re_sub ⟨"/docs".data, "/docs/y/d.md".data,
        [("notes.md".data, "/docs/x/notes.md".data)]⟩
        "[notes.md](notes.md)".data []).1
      ≠ "[notes.md](../x/notes.md)".data := by
  refine ⟨by decide, by decide⟩

/-- C2 (amended): the rewrite replaces every occurrence of the filename
substring inside the matched link text; for every label that does not
contain the filename substring (and has no straddling occurrence before
the target, and no occurrence inside the anchor or closing paren), only
the filename inside the parentheses changes: the label, brackets, parens
and any anchor suffix are preserved unchanged. -/
theorem c2_amended_label_preserved (ctx : AutoLinkReplacer) (miss : MissingRegistry)
    (lbl k anc P : List Char)
    (hres : alookup ctx.filename_to_abs_path (pyStrip k) = some P)
    (hk : k ≠ [])
    (ha : ∀ i, i < lbl.length + 3 →
      k.isPrefixOf ((group0 ⟨some lbl, k, anc⟩).drop i) = false)
    (hb : ∀ i, i ≤ (anc ++ [')']).length →
      k.isPrefixOf ((anc ++ [')']).drop i) = false) :
    (AutoLinkReplacer.call ctx miss ⟨some lbl, k, anc⟩).1
      = '[' :: (lbl ++ ']' :: '(' ::
          (quote (pyRelpath P (pyDirname ctx.abs_page_path)) ++ anc ++ [')'])) := by
  have hhead : (headPart (⟨some lbl, k, anc⟩ : LinkMatch)).length = lbl.length + 3 := by
    simp [headPart]
  have hcall := call_hit ctx miss ⟨some lbl, k, anc⟩ P hres hk
    (fun i hi => ha i (by rw [hhead] at hi; exact hi)) hb
  rw [hcall]
  simp [headPart]

/-- C2 amended witness: the spec's anchor example, `[Link](notes.md#section-2)`
with notes.md resolving to ../x/notes.md. -/
theorem c2_amended_label_preserved_witness :
    alookup [("notes.md".data, "/docs/x/notes.md".data)] (pyStrip "notes.md".data)
      = some "/docs/x/notes.md".data
    ∧ ("notes.md".data : List Char) ≠ []
    ∧ (∀ i, i < ("Link".data : List Char).length + 3 →
        ("notes.md".data : List Char).isPrefixOf
          ((group0 ⟨some "Link".data, "notes.md".data, "#section-2".data⟩).drop i)
            = false)
    ∧ (∀ i, i ≤ (("#section-2".data : List Char) ++ [')']).length →
        ("notes.md".data : List Char).isPrefixOf
          ((("#section-2".data : List Char) ++ [')']).drop i) = false)
    ∧ (AutoLinkReplacer.call
        ⟨"/docs".data, "/docs/y/d.md".data, [("notes.md".data, "/docs/x/notes.md".data)]⟩
        [] ⟨some "Link".data, "notes.md".data, "#section-2".data⟩).1
      = '[' :: ("Link".data ++ ']' :: '(' ::
          (quote (pyRelpath "/docs/x/notes.md".data (pyDirname "/docs/y/d.md".data))
            ++ "#section-2".data ++ [')'])) :=
  ⟨by decide, by decide, by decide, by decide,
    c2_amended_label_preserved
      ⟨"/docs".data, "/docs/y/d.md".data, [("notes.md".data, "/docs/x/notes.md".data)]⟩
      [] "Link".data "notes.md".data "#section-2".data "/docs/x/notes.md".data
      (by decide) (by decide) (by decide) (by decide)⟩

/-- C6 counterexample: the same plugin instance across two build cycles.
Build one processes a page with file set where n.md lives at a/n.md; build
two hands the instance a file set where n.md lives at b/n.md, but the
rewrite of build two still consults the index built from build one's file
set: the link resolves to a/n.md, not to b/n.md as a fresh index over the
second file set would give. -/
theorem c6_counterexample :
    (AutoLinksPlugin.on_page_markdown
        (AutoLinksPlugin.on_page_markdown AutoLinksPlugin.start []
          "/d/p.md".data "/d".data [⟨"/d/a/n.md".data, "a/n.md".data⟩]).2
        "[x](n.md)".data "/d/p.md".data "/d".data
        [⟨"/d/b/n.md".data, "b/n.md".data⟩]).1
      = "[x](a/n.md)".data
    ∧ (AutoLinksPlugin.on_page_markdown AutoLinksPlugin.start "[x](n.md)".data
        "/d/p.md".data "/d".data [⟨"/d/b/n.md".data, "b/n.md".data⟩]).1
      = "[x](b/n.md)".data
    ∧ ("[x](a/n.md)".data : List Char) ≠ "[x](b/n.md)".data := by
  refine ⟨by decide, by decide, by decide⟩

/-- C6 (amended): the filename index is built at most once per plugin
instance, on the first processed page, from that call's file set; every
later page rewrite, including those of later build cycles handled by the
same instance, reuses that index unchanged instead of rebuilding it. -/
theorem c6_amended_index_reused (st : AutoLinksPlugin)
    (markdown abs_page_path docs_dir : List Char) (files : List MkFile) :
    (st.filename_to_abs_path = none →
      ((st.on_page_markdown markdown abs_page_path docs_dir files).2).filename_to_abs_path
        = some (initIndexAux docs_dir files [] st.duplicate_filenames).1)
    ∧ ∀ idx, st.filename_to_abs_path = some idx →
        ((st.on_page_markdown markdown abs_page_path docs_dir files).2).filename_to_abs_path
          = some idx := by
  constructor
  · intro h
    simp [AutoLinksPlugin.on_page_markdown, AutoLinksPlugin.init_filename_to_abs_path, h]
  · intro idx h
    simp [AutoLinksPlugin.on_page_markdown, h]

/-- C6 amended witness: one fresh call builds the index; a second call with
a different file set keeps it. -/
theorem c6_amended_index_reused_witness :
    AutoLinksPlugin.start.filename_to_abs_path = none
    ∧ ((AutoLinksPlugin.on_page_markdown AutoLinksPlugin.start [] "/d/p.md".data
          "/d".data [⟨"/d/a/n.md".data, "a/n.md".data⟩]).2).filename_to_abs_path
      = some (initIndexAux "/d".data [⟨"/d/a/n.md".data, "a/n.md".data⟩] [] []).1
    ∧ ((AutoLinksPlugin.on_page_markdown
          ⟨some [("n.md".data, "/d/a/n.md".data)], [], []⟩ [] "/d/p.md".data
          "/d".data [⟨"/d/b/n.md".data, "b/n.md".data⟩]).2).filename_to_abs_path
      = some [("n.md".data, "/d/a/n.md".data)] :=
  ⟨rfl,
    (c6_amended_index_reused AutoLinksPlugin.start [] "/d/p.md".data "/d".data
      [⟨"/d/a/n.md".data, "a/n.md".data⟩]).1 rfl,
    (c6_amended_index_reused ⟨some [("n.md".data, "/d/a/n.md".data)], [], []⟩ []
      "/d/p.md".data "/d".data [⟨"/d/b/n.md".data, "b/n.md".data⟩]).2
      [("n.md".data, "/d/a/n.md".data)] rfl⟩

/-- C7: practical idempotence of the rewrite.  For a document consisting of
one recognized link whose filename resolves against the index, running the
rewrite a second time with the same index and the same linking file
returns the first pass's text unchanged, so its link targets resolve to
the same target files and the operation is stable run over run.  The
hypotheses state the link's shape (a labeled bare-filename link whose
filename is its only occurrence in the match) and that the index contains
no entry whose basename equals the percent-encoded rewritten path other
than the filename itself. -/
theorem c7_practical_idempotence (idx : FilenameIndex) (page docs : List Char)
    (lbl k P : List Char) (miss1 miss2 : MissingRegistry)
    (hlblne : lbl ≠ [])
    (hlbl : ∀ c ∈ lbl, c ≠ ']' ∧ c ≠ '[' ∧ c ≠ '!')
    (hkp : ∀ c ∈ k, c ≠ ')')
    (hkne : k ≠ [])
    (hsplit : splitTarget k = some (k, []))
    (hstrip : pyStrip k = k)
    (hres : alookup idx k = some P)
    (ha : ∀ i, i < lbl.length + 3 →
      k.isPrefixOf ((group0 ⟨some lbl, k, []⟩).drop i) = false)
    (hadv : alookup idx (quote (pyRelpath P (pyDirname page))) = none
      ∨ quote (pyRelpath P (pyDirname page)) = k) :
    (re_sub ⟨docs, page, idx⟩
        ((re_sub ⟨docs, page, idx⟩ ('[' :: (lbl ++ ']' :: '(' :: (k ++ [')']))) miss1).1)
        miss2).1
      = (re_sub ⟨docs, page, idx⟩ ('[' :: (lbl ++ ']' :: '(' :: (k ++ [')']))) miss1).1 := by
  set rel := quote (pyRelpath P (pyDirname page)) with hrel
  have hhead : (headPart (⟨some lbl, k, []⟩ : LinkMatch)).length = lbl.length + 3 := by
    simp [headPart]
  have hm1 : matchAt ('[' :: (lbl ++ ']' :: '(' :: (k ++ [')'])))
      = some (⟨some lbl, k, []⟩, []) := by
    have hgen := matchAt_labeled lbl k [] hlblne (fun c hc => (hlbl c hc).1) hkp
    rw [hsplit] at hgen
    simpa using hgen
  have hcall1 : AutoLinkReplacer.call ⟨docs, page, idx⟩ miss1 ⟨some lbl, k, []⟩
      = (headPart ⟨some lbl, k, []⟩ ++ rel ++ (([] : List Char) ++ [')']), miss1) := by
    apply call_hit
    · show alookup idx (pyStrip k) = some P
      rw [hstrip]
      exact hres
    · exact hkne
    · intro i hi
      rw [hhead] at hi
      exact ha i hi
    · intro i hi
      have h1 : i ≤ ([')'] : List Char).length := by simpa using hi
      have h2 := no_occ_rparen k hkne hkp i h1
      simpa using h2
  have hT1 : (re_sub ⟨docs, page, idx⟩ ('[' :: (lbl ++ ']' :: '(' :: (k ++ [')']))) miss1).1
      = '[' :: (lbl ++ ']' :: '(' :: (rel ++ [')'])) := by
    rw [re_sub_single _ _ _ _ hm1, hcall1]
    simp [headPart]
  rw [hT1]
  have hrelp : ∀ c ∈ rel, c ≠ ')' := by
    intro c hc
    rw [hrel] at hc
    exact (quote_chars _ c hc).1
  cases hsp2 : splitTarget rel with
  | none =>
    have hnone : ∀ i,
        matchAt (('[' :: (lbl ++ ']' :: '(' :: (rel ++ [')']))).drop i) = none := by
      intro i
      cases i with
      | zero =>
        have hgen := matchAt_labeled lbl rel [] hlblne (fun c hc => (hlbl c hc).1) hrelp
        rw [hsp2] at hgen
        simpa using hgen
      | succ j =>
        show matchAt ((lbl ++ ']' :: '(' :: (rel ++ [')'])).drop j) = none
        refine matchAt_drop_none _ ?_ j
        intro c hc
        rcases List.mem_append.mp hc with h1 | h1
        · exact ⟨(hlbl c h1).2.1, (hlbl c h1).2.2⟩
        · rcases List.mem_cons.mp h1 with rfl | h2
          · exact ⟨by decide, by decide⟩
          · rcases List.mem_cons.mp h2 with rfl | h3
            · exact ⟨by decide, by decide⟩
            · rcases List.mem_append.mp h3 with h4 | h4
              · rw [hrel] at h4
                exact ⟨(quote_chars _ c h4).2.2.1, (quote_chars _ c h4).2.2.2.1⟩
              · simp only [List.mem_singleton] at h4
                subst h4
                exact ⟨by decide, by decide⟩
    rw [re_sub_nomatch _ _ _ hnone]
  | some p =>
    obtain ⟨g3x, ancx⟩ := p
    obtain ⟨hcat, hanc⟩ := splitTarget_spec rel g3x ancx hsp2
    have hancnil : ancx = [] := by
      rcases hanc with h | h
      · exact h
      · exfalso
        cases ancx with
        | nil => simp at h
        | cons a t =>
          simp only [List.head?_cons, Option.some.injEq] at h
          subst h
          have hmem : '#' ∈ rel := by
            rw [← hcat]
            simp
          rw [hrel] at hmem
          exact (quote_chars _ '#' hmem).2.1 rfl
    subst hancnil
    have hg3x : g3x = rel := by simpa using hcat
    subst hg3x
    have hm2 : matchAt ('[' :: (lbl ++ ']' :: '(' :: (rel ++ [')'])))
        = some (⟨some lbl, rel, []⟩, []) := by
      have hgen := matchAt_labeled lbl rel [] hlblne (fun c hc => (hlbl c hc).1) hrelp
      rw [hsp2] at hgen
      simpa using hgen
    rw [re_sub_single _ _ _ _ hm2]
    have hstrip2 : pyStrip rel = rel := by
      rw [hrel]
      exact pyStrip_quote _
    by_cases hrelk : rel = k
    · have hcall2 : AutoLinkReplacer.call ⟨docs, page, idx⟩ miss2 ⟨some lbl, rel, []⟩
          = (headPart ⟨some lbl, rel, []⟩ ++ rel ++ (([] : List Char) ++ [')']), miss2) := by
        apply call_hit
        · show alookup idx (pyStrip rel) = some P
          rw [hstrip2, hrelk]
          exact hres
        · rw [hrelk]
          exact hkne
        · intro i hi
          rw [hrelk] at hi ⊢
          rw [hhead] at hi
          exact ha i hi
        · intro i hi
          rw [hrelk]
          have h1 : i ≤ ([')'] : List Char).length := by simpa using hi
          have h2 := no_occ_rparen k hkne hkp i h1
          simpa using h2
      rw [hcall2]
      simp [headPart]
    · have hmiss : alookup idx (pyStrip rel) = none := by
        rw [hstrip2]
        rcases hadv with h | h
        · exact h
        · exact absurd h hrelk
      rw [call_miss ⟨docs, page, idx⟩ miss2 ⟨some lbl, rel, []⟩ hmiss]
      simp [group0, headPart]

/-- C7 witness: `[x](n.md)` on page /docs/d.md, n.md indexed at
/docs/a/n.md; the first pass rewrites the target to a/n.md and a second
pass leaves the result unchanged. -/
theorem c7_practical_idempotence_witness :
    ("x".data : List Char) ≠ []
    ∧ (∀ c ∈ ("x".data : List Char), c ≠ ']' ∧ c ≠ '[' ∧ c ≠ '!')
    ∧ (∀ c ∈ ("n.md".data : List Char), c ≠ ')')
    ∧ ("n.md".data : List Char) ≠ []
    ∧ splitTarget "n.md".data = some ("n.md".data, [])
    ∧ pyStrip "n.md".data = "n.md".data
    ∧ alookup [("n.md".data, "/docs/a/n.md".data)] "n.md".data
        = some "/docs/a/n.md".data
    ∧ (∀ i, i < ("x".data : List Char).length + 3 →
        ("n.md".data : List Char).isPrefixOf
          ((group0 ⟨some "x".data, "n.md".data, []⟩).drop i) = false)
    ∧ (alookup [("n.md".data, "/docs/a/n.md".data)]
          (quote (pyRelpath "/docs/a/n.md".data (pyDirname "/docs/d.md".data))) = none
        ∨ quote (pyRelpath "/docs/a/n.md".data (pyDirname "/docs/d.md".data))
            = "n.md".data)
    ∧ (re_sub ⟨"/docs".data, "/docs/d.md".data, [("n.md".data, "/docs/a/n.md".data)]⟩
        ((re_sub ⟨"/docs".data, "/docs/d.md".data, [("n.md".data, "/docs/a/n.md".data)]⟩
          ('[' :: ("x".data ++ ']' :: '(' :: ("n.md".data ++ [')']))) []).1) []).1
      = (re_sub ⟨"/docs".data, "/docs/d.md".data, [("n.md".data, "/docs/a/n.md".data)]⟩
          ('[' :: ("x".data ++ ']' :: '(' :: ("n.md".data ++ [')']))) []).1 :=
  ⟨by decide, by decide, by decide, by decide, by decide, by decide, by decide,
    by decide, by decide,
    c7_practical_idempotence [("n.md".data, "/docs/a/n.md".data)] "/docs/d.md".data
      "/docs".data "x".data "n.md".data "/docs/a/n.md".data [] []
      (by decide) (by decide) (by decide) (by decide) (by decide) (by decide)
      (by decide) (by decide) (by decide)⟩
